import Mathlib

/-!
Shallow embedding of `scripts/generate_polar.py` (polar curve synthesis pipeline).

Conventions:
* Python floats are modelled by `ℚ` (exact real arithmetic).
* Angles are kept in degrees throughout.  The script stores `Sample.theta` in
  radians (`math.radians(angle_deg)`) and converts back with `math.degrees`
  before any arithmetic on angles (`bucket_by_angle`), so in exact arithmetic
  the radian detour is the identity and the degree-valued model is faithful.
  Likewise `aggregated_curve` is modelled up to (but not including) the final
  `math.radians` conversion of the smoothed point list, i.e. it returns the
  `smoothed_points` list, which is the list every claim speaks about.
* Python `sorted` / `list.sort` are modelled by insertion sort; both are
  stable sorts, and on `ℚ` (a linear order) the sorted permutation of a list
  is unique anyway.
* A Python `raise` (only `percentile` on an empty dataset can raise inside the
  pipeline) is modelled by `Option`: `none` means the exception.
-/

/-- Sample (generate_polar.py lines 20-24): one sailing sample.  The script
stores the angle in radians; here it is kept in degrees (see module comment). -/
structure Sample where
  angle : ℚ
  stw : ℚ
deriving DecidableEq

/-- Python float modulus `x % y` for `y > 0`: the representative of `x` modulo
`y` lying in `[0, y)`, i.e. `x - y * floor (x / y)`. -/
def fmod (x y : ℚ) : ℚ := x - y * ⌊x / y⌋

/-- Python `sorted(values)` on rationals (ascending). -/
def pySorted (l : List ℚ) : List ℚ := l.insertionSort (fun a b => a ≤ b)

/-- Interpolation core of `percentile` (generate_polar.py lines 101-110),
applied to the already-sorted list when it has at least two elements:
clamp the requested percentile to [0,100], take `rank = (n-1) * pct/100`,
and linearly interpolate between the floor and ceiling order statistics. -/
def percentile_sorted (ordered : List ℚ) (pct : ℚ) : ℚ :=
  let clamped_pct := max 0 (min 100 pct)
  let rank := ((ordered.length : ℚ) - 1) * (clamped_pct / 100)
  let lower := ⌊rank⌋
  let upper := ⌈rank⌉
  if lower = upper then ordered.getD lower.toNat 0
  else
    let lower_value := ordered.getD lower.toNat 0
    let upper_value := ordered.getD upper.toNat 0
    lower_value + (upper_value - lower_value) * (rank - lower)

/-- percentile (generate_polar.py lines 95-110).  `none` models the
`ValueError` raised on an empty dataset; a singleton is returned directly. -/
def percentile (values : List ℚ) (pct : ℚ) : Option ℚ :=
  match pySorted values with
  | [] => none
  | [x] => some x
  | x :: y :: rest => some (percentile_sorted (x :: y :: rest) pct)

/-- remove_outliers (generate_polar.py lines 206-217): IQR outlier rejection.
`none` propagates a `percentile` failure (unreachable for nonempty input). -/
def remove_outliers (values : List ℚ) : Option (List ℚ) :=
  if values.length < 4 then some values
  else
    match percentile values 25, percentile values 75 with
    | some q1, some q3 =>
      let iqr := q3 - q1
      if iqr ≤ 0 then
        some (values.filter (fun v => decide (q1 ≤ v ∧ v ≤ q3)))
      else
        let lower := q1 - 1.5 * iqr
        let upper := q3 + 1.5 * iqr
        some (values.filter (fun v => decide (lower ≤ v ∧ v ≤ upper)))
    | _, _ => none

/-- Bucket-centre computation from bucket_by_angle (generate_polar.py line 199):
`int(((angle_deg + (bin_size / 2.0)) % 360) // bin_size * bin_size)`.
The call sites use a positive `bin_size` (CLI contract), for which the
`int(...)` truncation coincides with the floor taken here. -/
def bucket_center (bin_size : ℤ) (angle_deg : ℚ) : ℤ :=
  ⌊fmod (angle_deg + (bin_size : ℚ) / 2) 360 / (bin_size : ℚ)⌋ * bin_size

/-- Keys of the defaultdict built by bucket_by_angle (generate_polar.py lines
195-201), listed ascending as consumed by `sorted(bins.keys())` in
aggregated_curve. -/
def bucket_keys (samples : List Sample) (bin_size : ℤ) : List ℤ :=
  ((samples.map (fun s => bucket_center bin_size s.angle)).dedup).insertionSort
    (fun a b => a ≤ b)

/-- Value list of one bucket of bucket_by_angle: the `stw` of every sample
whose angle falls on the given bucket centre, in input order. -/
def bucket_values (samples : List Sample) (bin_size : ℤ) (key : ℤ) : List ℚ :=
  (samples.filter (fun s => decide (bucket_center bin_size s.angle = key))).map
    Sample.stw

/-- The `curve_points` accumulation loop of aggregated_curve (generate_polar.py
lines 239-243): walk the sorted bucket keys, drop buckets whose filtered value
count is below `min_samples`, aggregate the rest at the requested percentile. -/
def curve_points_of_keys (samples : List Sample) (bin_size : ℤ) (pct : ℚ)
    (min_samples : ℤ) : List ℤ → Option (List (ℚ × ℚ))
  | [] => some []
  | key :: rest =>
    match remove_outliers (bucket_values samples bin_size key) with
    | none => none
    | some filtered =>
      if (filtered.length : ℤ) < min_samples then
        curve_points_of_keys samples bin_size pct min_samples rest
      else
        match percentile filtered pct with
        | none => none
        | some value =>
          match curve_points_of_keys samples bin_size pct min_samples rest with
          | none => none
          | some tail => some (((key : ℚ), value) :: tail)

/-- The `curve_points.sort(key=lambda item: item[0])` call of aggregated_curve
(generate_polar.py line 247): stable sort by angle. -/
def sort_points (pts : List (ℚ × ℚ)) : List (ℚ × ℚ) :=
  pts.insertionSort (fun p q => p.1 ≤ q.1)

/-- Low-end anchoring of aggregated_curve (generate_polar.py lines 248-251):
insert `(0,0)` when the lowest angle is positive, otherwise overwrite the
lowest point with `(0,0)`. -/
def anchor_low (pts : List (ℚ × ℚ)) : List (ℚ × ℚ) :=
  match pts with
  | [] => []
  | (a, s) :: rest =>
    if 0 < a then ((0 : ℚ), (0 : ℚ)) :: (a, s) :: rest
    else ((0 : ℚ), (0 : ℚ)) :: rest

/-- High-end anchoring of aggregated_curve (generate_polar.py lines 252-255):
append `(360,0)` when the highest angle is below 360, otherwise overwrite the
highest point with `(360,0)`. -/
def anchor_high (pts : List (ℚ × ℚ)) : List (ℚ × ℚ) :=
  match pts.reverse with
  | [] => []
  | (a, s) :: rest =>
    if a < 360 then (((360 : ℚ), (0 : ℚ)) :: (a, s) :: rest).reverse
    else (((360 : ℚ), (0 : ℚ)) :: rest).reverse

/-- Speeds in the averaging window `points[max(0, idx-window) : min(n, idx+window+1)]`
of smooth_curve (generate_polar.py lines 230-232). -/
def window_speeds (points : List (ℚ × ℚ)) (idx : ℕ) (window : ℤ) : List ℚ :=
  let start := max 0 ((idx : ℤ) - window)
  let stop := min ((points.length : ℤ)) ((idx : ℤ) + window + 1)
  ((points.drop start.toNat).take (stop - start).toNat).map Prod.snd

/-- smooth_curve (generate_polar.py lines 221-234): windowed moving average of
the interior speeds; the first and last point are copied unchanged; lists of
at most 3 points, or a non-positive window, are returned unchanged. -/
def smooth_curve (points : List (ℚ × ℚ)) (window : ℤ) : List (ℚ × ℚ) :=
  if points.length ≤ 3 ∨ window ≤ 0 then points
  else
    (List.range points.length).map (fun idx =>
      let p := points.getD idx (0, 0)
      if idx = 0 ∨ idx = points.length - 1 then p
      else
        let ws := window_speeds points idx window
        (p.1, ws.sum / (ws.length : ℚ)))

/-- Curve assembly tail of aggregated_curve (generate_polar.py lines 244-256):
degenerate zero curve on no points, otherwise sort, anchor both ends, then
smooth with the default window 2. -/
def assemble_curve (curve_points : List (ℚ × ℚ)) : List (ℚ × ℚ) :=
  let pts :=
    match curve_points with
    | [] => [((0 : ℚ), (0 : ℚ)), ((360 : ℚ), (0 : ℚ))]
    | _ :: _ => anchor_high (anchor_low (sort_points curve_points))
  smooth_curve pts 2

/-- aggregated_curve (generate_polar.py lines 236-259), up to the final
radian conversion: the smoothed degree-valued point list.  `none` models an
uncaught `ValueError` from `percentile`. -/
def aggregated_curve (samples : List Sample) (bin_size : ℤ) (pct : ℚ)
    (min_samples : ℤ) : Option (List (ℚ × ℚ)) :=
  match curve_points_of_keys samples bin_size pct min_samples
      (bucket_keys samples bin_size) with
  | none => none
  | some cps => some (assemble_curve cps)

/-- true_wind_angle (generate_polar.py lines 113-118): absolute true wind
angle in `[0, 180]`, 0 meaning head to wind. -/
def true_wind_angle (course wind_dir : ℚ) : ℚ :=
  let angle := fmod (wind_dir - course) 360
  if angle > 180 then 360 - angle else angle

/-- categorize_wind_speed (generate_polar.py lines 126-134) over the WIND_BINS
table (lines 27-32): first matching band label, last band unbounded above. -/
def categorize_wind_speed (speed : ℚ) : Option String :=
  if 2.5 ≤ speed ∧ speed < 7.5 then some "2.5-7.5 kn"
  else if 7.5 ≤ speed ∧ speed < 12.5 then some "7.5-12.5 kn"
  else if 12.5 ≤ speed ∧ speed < 17.5 then some "12.5-17.5 kn"
  else if 17.5 ≤ speed then some ">17.5 kn"
  else none

/-- One log point's numeric fields, after the presence and time-window checks
of collect_sailing_samples (generate_polar.py lines 152-173) have passed. -/
structure RawEntry where
  stw : ℚ
  sog : ℚ
  wind_speed : ℚ
  wind_dir : ℚ
  course : ℚ

/-- Per-point sample production of collect_sailing_samples (generate_polar.py
lines 174-191): the list of samples this entry appends to the band selected by
`categorize_wind_speed` (empty when the entry is filtered out or unbanded). -/
def sample_contribution (e : RawEntry) : List Sample :=
  if e.wind_speed ≤ 0 then []
  else if e.sog > 0.8 * e.wind_speed then []
  else
    match categorize_wind_speed e.wind_speed with
    | none => []
    | some _ =>
      let angle_deg := true_wind_angle e.course e.wind_dir
      if angle_deg < 30 then []
      else
        let primary := [Sample.mk angle_deg e.stw]
        if 0 < angle_deg ∧ angle_deg < 180 then
          let mirrored_angle := fmod (360 - angle_deg) 360
          if mirrored_angle ≤ 330 then
            primary ++ [Sample.mk mirrored_angle e.stw]
          else primary
        else primary

/-- Python `math.isclose(a, b, abs_tol=1e-6)` with the default relative
tolerance 1e-9, as called in interpolate_speed:
`|a - b| ≤ max(1e-9 * max(|a|, |b|), 1e-6)`. -/
def isclose (a b : ℚ) : Bool :=
  decide (|a - b| ≤ max (1 / 1000000000 * max |a| |b|) (1 / 1000000))

/-- Python `bisect.bisect_left(angles, target)` for an ascending `angles`
list (the only way interpolate_speed calls it): the first index whose element
is not `< target`, i.e. the length of the longest `< target` prefix. -/
def bisect_left (angles : List ℚ) (target : ℚ) : ℕ :=
  (angles.takeWhile (fun a => decide (a < target))).length

/-- interpolate_speed (generate_polar.py lines 261-283): exact/near match,
bounded extrapolation within 10 degrees of either end, otherwise linear
interpolation between the bracketing points. -/
def interpolate_speed (points : List (ℚ × ℚ)) (target : ℚ) : Option ℚ :=
  match points with
  | [] => none
  | first :: _ =>
    let angles := points.map Prod.fst
    let idx := bisect_left angles target
    if decide (idx < points.length) && isclose (angles.getD idx 0) target then
      some ((points.getD idx (0, 0)).2)
    else if idx = 0 then
      if first.1 ≥ target ∧ first.1 - target ≤ 10 then some first.2 else none
    else if idx = points.length then
      let last := points.getLastD (0, 0)
      if target ≥ last.1 ∧ target - last.1 ≤ 10 then some last.2 else none
    else
      let left := points.getD (idx - 1) (0, 0)
      let right := points.getD idx (0, 0)
      if isclose right.1 left.1 then some left.2
      else some (left.2 + (target - left.1) / (right.1 - left.1) * (right.2 - left.2))

/-! ### Basic facts about the sorting model and `percentile` -/

theorem pySorted_length (l : List ℚ) : (pySorted l).length = l.length :=
  List.length_insertionSort _ l

theorem pySorted_sorted (l : List ℚ) : (pySorted l).Sorted (fun a b => a ≤ b) :=
  List.sorted_insertionSort _ l

theorem pySorted_perm (l : List ℚ) : (pySorted l).Perm l :=
  List.perm_insertionSort _ l

theorem pySorted_eq_nil_iff (l : List ℚ) : pySorted l = [] ↔ l = [] := by
  constructor
  · intro h
    have hl := pySorted_length l
    rw [h] at hl
    exact List.length_eq_zero.mp hl.symm
  · intro h
    subst h
    rfl

theorem percentile_singleton (x : ℚ) (pct : ℚ) : percentile [x] pct = some x := rfl

theorem percentile_eq_percentile_sorted (values : List ℚ) (pct : ℚ)
    (h2 : 2 ≤ values.length) :
    percentile values pct = some (percentile_sorted (pySorted values) pct) := by
  have hlen := pySorted_length values
  rcases hs : pySorted values with _ | ⟨x, _ | ⟨y, rest⟩⟩
  · rw [hs] at hlen
    simp only [List.length_nil] at hlen
    omega
  · rw [hs] at hlen
    simp only [List.length_singleton] at hlen
    omega
  · simp only [percentile]
    rw [hs]

theorem percentile_isSome (values : List ℚ) (pct : ℚ) (h : values ≠ []) :
    (percentile values pct).isSome := by
  rcases hs : pySorted values with _ | ⟨x, _ | ⟨y, rest⟩⟩
  · exact absurd ((pySorted_eq_nil_iff values).mp hs) h
  · simp only [percentile]
    rw [hs]
    rfl
  · simp only [percentile]
    rw [hs]
    rfl

theorem percentile_sorted_congr (s : List ℚ) {p q : ℚ}
    (h : max 0 (min 100 p) = max 0 (min 100 q)) :
    percentile_sorted s p = percentile_sorted s q := by
  unfold percentile_sorted
  rw [h]

theorem percentile_congr_clamp (values : List ℚ) {p q : ℚ}
    (h : max 0 (min 100 p) = max 0 (min 100 q)) :
    percentile values p = percentile values q := by
  rcases hs : pySorted values with _ | ⟨x, _ | ⟨y, rest⟩⟩ <;>
    simp only [percentile] <;> rw [hs]
  exact congrArg some (percentile_sorted_congr _ h)

/-! ### Order statistics of sorted lists -/

theorem sorted_getD_mono {s : List ℚ} (hs : s.Sorted (fun a b => a ≤ b))
    {i j : ℕ} (hij : i ≤ j) (hj : j < s.length) :
    s.getD i 0 ≤ s.getD j 0 := by
  have hi : i < s.length := lt_of_le_of_lt hij hj
  rw [List.getD_eq_getElem _ _ hi, List.getD_eq_getElem _ _ hj]
  rcases eq_or_lt_of_le hij with h | h
  · subst h
    rfl
  · exact List.Sorted.rel_get_of_lt hs (by exact h)

theorem sorted_head_min {s : List ℚ} (hs : s.Sorted (fun a b => a ≤ b))
    (hne : s ≠ []) : ∀ x ∈ s, s.getD 0 0 ≤ x := by
  rcases s with _ | ⟨a, t⟩
  · exact absurd rfl hne
  · intro x hx
    rcases List.mem_cons.mp hx with h | h
    · subst h
      rfl
    · exact (List.sorted_cons.mp hs).1 x h

theorem sorted_getLast_max {s : List ℚ} (hs : s.Sorted (fun a b => a ≤ b))
    (hne : s ≠ []) : ∀ x ∈ s, x ≤ s.getD (s.length - 1) 0 := by
  induction s with
  | nil => exact absurd rfl hne
  | cons a t ih =>
    intro x hx
    rcases t with _ | ⟨b, u⟩
    · simp only [List.mem_singleton] at hx
      subst hx
      rfl
    · have hs' := (List.sorted_cons.mp hs).2
      have hlast : (a :: b :: u).getD ((a :: b :: u).length - 1) 0 =
          (b :: u).getD ((b :: u).length - 1) 0 := by
        simp only [List.length_cons]
        rfl
      rw [hlast]
      rcases List.mem_cons.mp hx with h | h
      · subst h
        have hmem : (b :: u).getD ((b :: u).length - 1) 0 ∈ (b :: u) := by
          rw [List.getD_eq_getElem _ _ (by simp)]
          exact List.getElem_mem _
        exact (List.sorted_cons.mp hs).1 _ hmem
      · exact ih hs' (by simp) x h

theorem percentile_sorted_intRank (s : List ℚ) (pct : ℚ) (z : ℤ)
    (hz : ((s.length : ℚ) - 1) * (max 0 (min 100 pct) / 100) = (z : ℚ)) :
    percentile_sorted s pct = s.getD z.toNat 0 := by
  simp only [percentile_sorted]
  rw [hz, Int.floor_intCast, Int.ceil_intCast, if_pos rfl]

theorem percentile_zero_min (values : List ℚ) (hne : values ≠ []) :
    ∃ m, percentile values 0 = some m ∧ m ∈ values ∧ ∀ x ∈ values, m ≤ x := by
  rcases hs : pySorted values with _ | ⟨x, _ | ⟨y, rest⟩⟩
  · exact absurd ((pySorted_eq_nil_iff values).mp hs) hne
  · have hv : values = [x] := by
      have hp := pySorted_perm values
      rw [hs] at hp
      exact (List.singleton_perm.mp hp).symm
    subst hv
    exact ⟨x, rfl, by simp, by simp⟩
  · have hlen := pySorted_length values
    rw [hs] at hlen
    simp only [List.length_cons] at hlen
    have h2 : 2 ≤ values.length := by omega
    rw [percentile_eq_percentile_sorted _ _ h2]
    have hval : percentile_sorted (pySorted values) 0 = (pySorted values).getD 0 0 := by
      apply percentile_sorted_intRank _ _ 0
      norm_num
    have hmem : (pySorted values).getD 0 0 ∈ pySorted values := by
      rw [List.getD_eq_getElem _ _ (by rw [hs]; simp)]
      exact List.getElem_mem _
    refine ⟨(pySorted values).getD 0 0, by rw [hval], ?_, ?_⟩
    · exact ((pySorted_perm values).mem_iff).mp hmem
    · intro z hz
      exact sorted_head_min (pySorted_sorted values) (by rw [hs]; simp) z
        (((pySorted_perm values).mem_iff).mpr hz)

theorem percentile_hundred_max (values : List ℚ) (hne : values ≠ []) :
    ∃ M, percentile values 100 = some M ∧ M ∈ values ∧ ∀ x ∈ values, x ≤ M := by
  rcases hs : pySorted values with _ | ⟨x, _ | ⟨y, rest⟩⟩
  · exact absurd ((pySorted_eq_nil_iff values).mp hs) hne
  · have hv : values = [x] := by
      have hp := pySorted_perm values
      rw [hs] at hp
      exact (List.singleton_perm.mp hp).symm
    subst hv
    exact ⟨x, rfl, by simp, by simp⟩
  · have hlen := pySorted_length values
    rw [hs] at hlen
    simp only [List.length_cons] at hlen
    have h2 : 2 ≤ values.length := by omega
    rw [percentile_eq_percentile_sorted _ _ h2]
    have hidx : ((values.length : ℤ) - 1).toNat = (pySorted values).length - 1 := by
      rw [pySorted_length]
      omega
    have hval : percentile_sorted (pySorted values) 100 =
        (pySorted values).getD ((pySorted values).length - 1) 0 := by
      rw [← hidx]
      apply percentile_sorted_intRank _ _ ((values.length : ℤ) - 1)
      rw [pySorted_length]
      push_cast
      norm_num
    have hmem : (pySorted values).getD ((pySorted values).length - 1) 0 ∈ pySorted values := by
      rw [List.getD_eq_getElem _ _ (by rw [hs]; simp)]
      exact List.getElem_mem _
    refine ⟨(pySorted values).getD ((pySorted values).length - 1) 0, by rw [hval], ?_, ?_⟩
    · exact ((pySorted_perm values).mem_iff).mp hmem
    · intro z hz
      exact sorted_getLast_max (pySorted_sorted values) (by rw [hs]; simp) z
        (((pySorted_perm values).mem_iff).mpr hz)

theorem percentile_fifty_median (values : List ℚ) (k : ℕ)
    (hlen : values.length = 2 * k + 1) :
    percentile values 50 = some ((pySorted values).getD k 0) := by
  rcases Nat.eq_zero_or_pos k with hk | hk
  · subst hk
    rcases values with _ | ⟨x, _ | ⟨y, t⟩⟩
    · simp at hlen
    · rfl
    · simp at hlen
  · have h2 : 2 ≤ values.length := by omega
    rw [percentile_eq_percentile_sorted _ _ h2]
    congr 1
    have : ((k : ℤ)).toNat = k := rfl
    rw [← this]
    apply percentile_sorted_intRank
    rw [pySorted_length, hlen]
    have hclamp : max (0 : ℚ) (min 100 50) = 50 := by norm_num
    rw [hclamp]
    push_cast
    ring

/-! ### The interpolated percentile lies between its two order statistics -/

theorem clamp_nonneg (pct : ℚ) : 0 ≤ max 0 (min 100 pct) := le_max_left _ _

theorem clamp_le_hundred (pct : ℚ) : max 0 (min 100 pct) ≤ 100 :=
  max_le (by norm_num) (min_le_left _ _)

theorem rank_nonneg (n : ℕ) (pct : ℚ) (hn : 1 ≤ n) :
    0 ≤ ((n : ℚ) - 1) * (max 0 (min 100 pct) / 100) := by
  apply mul_nonneg
  · have h1 : (1 : ℚ) ≤ (n : ℚ) := by exact_mod_cast hn
    linarith
  · exact div_nonneg (clamp_nonneg pct) (by norm_num)

theorem rank_le_pred (n : ℕ) (pct : ℚ) (hn : 1 ≤ n) :
    ((n : ℚ) - 1) * (max 0 (min 100 pct) / 100) ≤ (n : ℚ) - 1 := by
  have h1 : (1 : ℚ) ≤ (n : ℚ) := by exact_mod_cast hn
  have hc := clamp_le_hundred pct
  have hc0 := clamp_nonneg pct
  nlinarith

theorem percentile_sorted_bounds (s : List ℚ) (hs : s.Sorted (fun a b => a ≤ b))
    (h2 : 2 ≤ s.length) (pct : ℚ) :
    s.getD (⌊((s.length : ℚ) - 1) * (max 0 (min 100 pct) / 100)⌋).toNat 0 ≤
        percentile_sorted s pct ∧
    percentile_sorted s pct ≤
        s.getD (⌈((s.length : ℚ) - 1) * (max 0 (min 100 pct) / 100)⌉).toNat 0 := by
  simp only [percentile_sorted]
  set rank : ℚ := ((s.length : ℚ) - 1) * (max 0 (min 100 pct) / 100) with hrank
  have hr0 : 0 ≤ rank := rank_nonneg s.length pct (by omega)
  have hr1 : rank ≤ (s.length : ℚ) - 1 := rank_le_pred s.length pct (by omega)
  have hfl0 : 0 ≤ ⌊rank⌋ := Int.floor_nonneg.mpr hr0
  have hcl : ⌈rank⌉ ≤ (s.length : ℤ) - 1 := by
    apply Int.ceil_le.mpr
    push_cast
    exact hr1
  have hfl_le_cl : ⌊rank⌋ ≤ ⌈rank⌉ := Int.floor_le_ceil rank
  have hclNat : (⌈rank⌉).toNat < s.length := by omega
  have hflNat : (⌊rank⌋).toNat ≤ (⌈rank⌉).toNat := by omega
  by_cases h : ⌊rank⌋ = ⌈rank⌉
  · rw [if_pos h]
    exact ⟨le_refl _, by rw [h]⟩
  · rw [if_neg h]
    have hlv_le_uv : s.getD (⌊rank⌋).toNat 0 ≤ s.getD (⌈rank⌉).toNat 0 :=
      sorted_getD_mono hs hflNat hclNat
    have hfrac0 : 0 ≤ rank - (⌊rank⌋ : ℚ) := by
      have := Int.floor_le rank
      linarith
    have hfrac1 : rank - (⌊rank⌋ : ℚ) < 1 := by
      have := Int.lt_floor_add_one rank
      linarith
    constructor
    · nlinarith [mul_nonneg (sub_nonneg.mpr hlv_le_uv) hfrac0]
    · nlinarith [mul_nonneg (sub_nonneg.mpr hlv_le_uv) (by linarith : (0:ℚ) ≤ 1 - (rank - (⌊rank⌋ : ℚ)))]

/-! ### A value surviving the IQR filter always exists -/

theorem quartile_chain (values : List ℚ) (h4 : 4 ≤ values.length) :
    ∃ v q1 q3, percentile values 25 = some q1 ∧ percentile values 75 = some q3 ∧
      v ∈ values ∧ q1 ≤ v ∧ v ≤ q3 := by
  have hs := pySorted_sorted values
  have hslen : (pySorted values).length = values.length := pySorted_length values
  have h2 : 2 ≤ values.length := by omega
  have hq1 := percentile_eq_percentile_sorted values 25 h2
  have hq3 := percentile_eq_percentile_sorted values 75 h2
  have hb25 := percentile_sorted_bounds (pySorted values) hs (by omega) 25
  have hb75 := percentile_sorted_bounds (pySorted values) hs (by omega) 75
  set n : ℕ := (pySorted values).length with hn
  set r25 : ℚ := ((n : ℚ) - 1) * (max 0 (min 100 25) / 100) with h25
  set r75 : ℚ := ((n : ℚ) - 1) * (max 0 (min 100 75) / 100) with h75
  have hnq : (4 : ℚ) ≤ (n : ℚ) := by exact_mod_cast (by omega : 4 ≤ n)
  have hr25eq : r25 = ((n : ℚ) - 1) / 4 := by
    rw [h25]
    norm_num
    ring
  have hr75eq : r75 = ((n : ℚ) - 1) * 3 / 4 := by
    rw [h75]
    norm_num
    ring
  have hstep : r25 + 1 ≤ r75 := by
    rw [hr25eq, hr75eq]
    linarith
  have hle : ⌈r25⌉ ≤ ⌊r75⌋ := by
    calc ⌈r25⌉ ≤ ⌊r25⌋ + 1 := Int.ceil_le_floor_add_one r25
      _ = ⌊r25 + 1⌋ := (Int.floor_add_int r25 1).symm
      _ ≤ ⌊r75⌋ := Int.floor_le_floor hstep
  have hc0 : 0 ≤ ⌈r25⌉ := by
    apply Int.ceil_nonneg
    rw [hr25eq]
    linarith
  have hf75 : ⌊r75⌋ ≤ (n : ℤ) - 1 := by
    have hv : r75 ≤ (n : ℚ) - 1 := by
      rw [hr75eq]
      linarith
    have := (Int.le_floor (z := (n : ℤ) - 1) (a := ((n : ℚ) - 1))).mpr (by push_cast; linarith)
    have hmono := Int.floor_le_floor hv
    have : ⌊((n : ℚ) - 1)⌋ = (n : ℤ) - 1 := by
      rw [show ((n : ℚ) - 1) = (((n : ℤ) - 1 : ℤ) : ℚ) by push_cast; ring]
      exact Int.floor_intCast _
    omega
  have hidx75 : (⌊r75⌋).toNat < n := by omega
  have hidx25 : (⌈r25⌉).toNat ≤ (⌊r75⌋).toNat := by omega
  have hidx25lt : (⌈r25⌉).toNat < n := by omega
  refine ⟨(pySorted values).getD (⌈r25⌉).toNat 0, percentile_sorted (pySorted values) 25,
    percentile_sorted (pySorted values) 75, hq1, hq3, ?_, ?_, ?_⟩
  · apply ((pySorted_perm values).mem_iff).mp
    rw [List.getD_eq_getElem _ _ (by omega)]
    exact List.getElem_mem _
  · exact hb25.2
  · calc (pySorted values).getD (⌈r25⌉).toNat 0
        ≤ (pySorted values).getD (⌊r75⌋).toNat 0 := sorted_getD_mono hs hidx25 (by omega)
      _ ≤ percentile_sorted (pySorted values) 75 := hb75.1

theorem remove_outliers_some_nonempty (values : List ℚ) (hne : values ≠ []) :
    ∃ kept, remove_outliers values = some kept ∧ kept ≠ [] := by
  by_cases h4 : values.length < 4
  · exact ⟨values, by simp [remove_outliers, h4], hne⟩
  · push_neg at h4
    obtain ⟨v, q1, q3, hq1, hq3, hv, hq1v, hvq3⟩ := quartile_chain values h4
    simp only [remove_outliers, if_neg (by omega : ¬ values.length < 4), hq1, hq3]
    by_cases hiqr : q3 - q1 ≤ 0
    · rw [if_pos hiqr]
      refine ⟨_, rfl, ?_⟩
      apply List.ne_nil_of_mem (a := v)
      exact List.mem_filter.mpr ⟨hv, by simp [hq1v, hvq3]⟩
    · rw [if_neg hiqr]
      refine ⟨_, rfl, ?_⟩
      apply List.ne_nil_of_mem (a := v)
      apply List.mem_filter.mpr
      refine ⟨hv, ?_⟩
      simp only [decide_eq_true_eq]
      push_neg at hiqr
      constructor <;> nlinarith

/-! ### Totality of the per-bucket aggregation -/

theorem bucket_values_ne_nil (samples : List Sample) (bin_size : ℤ) (key : ℤ)
    (hkey : key ∈ bucket_keys samples bin_size) :
    bucket_values samples bin_size key ≠ [] := by
  unfold bucket_keys at hkey
  rw [List.mem_insertionSort, List.mem_dedup, List.mem_map] at hkey
  obtain ⟨s, hsmem, hcenter⟩ := hkey
  unfold bucket_values
  apply List.ne_nil_of_mem (a := s.stw)
  apply List.mem_map.mpr
  exact ⟨s, List.mem_filter.mpr ⟨hsmem, by simp [hcenter]⟩, rfl⟩

theorem curve_points_of_keys_isSome (samples : List Sample) (bin_size : ℤ)
    (pct : ℚ) (min_samples : ℤ) (keys : List ℤ)
    (hkeys : ∀ key ∈ keys, bucket_values samples bin_size key ≠ []) :
    (curve_points_of_keys samples bin_size pct min_samples keys).isSome := by
  induction keys with
  | nil => rfl
  | cons key rest ih =>
    have hne := hkeys key (List.mem_cons_self _ _)
    obtain ⟨kept, hkept, hkeptne⟩ := remove_outliers_some_nonempty _ hne
    simp only [curve_points_of_keys, hkept]
    by_cases hmin : ((kept.length : ℤ) < min_samples)
    · rw [if_pos hmin]
      exact ih (fun k hk => hkeys k (List.mem_cons_of_mem _ hk))
    · rw [if_neg hmin]
      obtain ⟨value, hvalue⟩ :=
        Option.isSome_iff_exists.mp (percentile_isSome kept pct hkeptne)
      rw [hvalue]
      obtain ⟨tail, htail⟩ :=
        Option.isSome_iff_exists.mp (ih (fun k hk => hkeys k (List.mem_cons_of_mem _ hk)))
      rw [htail]
      rfl

theorem aggregated_curve_isSome (samples : List Sample) (bin_size : ℤ)
    (pct : ℚ) (min_samples : ℤ) :
    (aggregated_curve samples bin_size pct min_samples).isSome := by
  unfold aggregated_curve
  obtain ⟨cps, hcps⟩ := Option.isSome_iff_exists.mp
    (curve_points_of_keys_isSome samples bin_size pct min_samples
      (bucket_keys samples bin_size)
      (fun key hk => bucket_values_ne_nil samples bin_size key hk))
  rw [hcps]
  rfl

/-! ### Smoothing preserves the boundary points; anchoring forces them -/

theorem getD_last_of_ne_nil (l : List (ℚ × ℚ)) (hne : l ≠ []) :
    l.getLast? = some (l.getD (l.length - 1) (0, 0)) := by
  have hpos : 0 < l.length := List.length_pos.mpr hne
  rw [List.getLast?_eq_getElem?, List.getD_eq_getElem _ _ (by omega),
    List.getElem?_eq_getElem (by omega)]

theorem smooth_curve_head (points : List (ℚ × ℚ)) (window : ℤ) :
    (smooth_curve points window).head? = points.head? := by
  unfold smooth_curve
  by_cases h : points.length ≤ 3 ∨ window ≤ 0
  · rw [if_pos h]
  · rw [if_neg h]
    push_neg at h
    rcases points with _ | ⟨p, t⟩
    · simp at h
    · rw [List.head?_map, List.head?_range, if_neg (by simp)]
      simp

theorem smooth_curve_getLast (points : List (ℚ × ℚ)) (window : ℤ) :
    (smooth_curve points window).getLast? = points.getLast? := by
  unfold smooth_curve
  by_cases h : points.length ≤ 3 ∨ window ≤ 0
  · rw [if_pos h]
  · rw [if_neg h]
    push_neg at h
    have hne : points ≠ [] := by
      intro hnil
      rw [hnil] at h
      simp at h
    obtain ⟨m, hm⟩ : ∃ m, points.length = m + 1 :=
      ⟨points.length - 1, by have := List.length_pos.mpr hne; omega⟩
    rw [List.getLast?_map, hm, List.range_succ, List.getLast?_concat]
    simp only [Option.map_some']
    have hmpos : m ≠ 0 := by
      rcases h with ⟨h3, _⟩
      omega
    rw [if_pos (Or.inr (by omega))]
    have hm' : m = points.length - 1 := by omega
    rw [getD_last_of_ne_nil points hne, hm']

theorem anchor_low_head (pts : List (ℚ × ℚ)) (hne : pts ≠ []) :
    ∃ t, anchor_low pts = ((0 : ℚ), (0 : ℚ)) :: t := by
  rcases pts with _ | ⟨⟨a, s⟩, rest⟩
  · exact absurd rfl hne
  · by_cases h : 0 < a
    · exact ⟨(a, s) :: rest, by simp [anchor_low, h]⟩
    · exact ⟨rest, by simp [anchor_low, h]⟩

theorem anchor_high_spec (l : List (ℚ × ℚ)) (t : List (ℚ × ℚ))
    (hl : l = ((0 : ℚ), (0 : ℚ)) :: t) :
    (anchor_high l).head? = some ((0 : ℚ), (0 : ℚ)) ∧
    (anchor_high l).getLast? = some ((360 : ℚ), (0 : ℚ)) := by
  have hlne : l ≠ [] := by rw [hl]; simp
  have hrevlast : l.reverse.getLast? = some ((0 : ℚ), (0 : ℚ)) := by
    rw [List.getLast?_reverse, hl]
    rfl
  rcases hr : l.reverse with _ | ⟨⟨a, s⟩, rest⟩
  · exact absurd hr (by simpa using hlne)
  · simp only [anchor_high, hr]
    by_cases hc : a < 360
    · rw [if_pos hc]
      refine ⟨?_, by rw [List.getLast?_reverse]; rfl⟩
      rw [List.head?_reverse, List.getLast?_cons_cons]
      rw [hr] at hrevlast
      exact hrevlast
    · rw [if_neg hc]
      rcases rest with _ | ⟨r0, rest2⟩
      · exfalso
        have hsing : l = [(a, s)] := by
          have := congrArg List.reverse hr
          simpa using this
        rw [hl] at hsing
        have ha : a = 0 := by
          cases t
          · simp only [List.cons.injEq, Prod.mk.injEq] at hsing
            exact hsing.1.1.symm
          · simp at hsing
        exact hc (by rw [ha]; norm_num)
      · refine ⟨?_, by rw [List.getLast?_reverse]; rfl⟩
        rw [List.head?_reverse, List.getLast?_cons_cons]
        rw [hr, List.getLast?_cons_cons] at hrevlast
        exact hrevlast

theorem assemble_curve_head_last (cps : List (ℚ × ℚ)) (hne : cps ≠ []) :
    (assemble_curve cps).head? = some ((0 : ℚ), (0 : ℚ)) ∧
    (assemble_curve cps).getLast? = some ((360 : ℚ), (0 : ℚ)) := by
  rcases cps with _ | ⟨p, rest⟩
  · exact absurd rfl hne
  · have hred : assemble_curve (p :: rest) =
        smooth_curve (anchor_high (anchor_low (sort_points (p :: rest)))) 2 := rfl
    rw [hred, smooth_curve_head, smooth_curve_getLast]
    have hsne : sort_points (p :: rest) ≠ [] := by
      intro h
      have hl := List.length_insertionSort (fun p q : ℚ × ℚ => p.1 ≤ q.1) (p :: rest)
      rw [show (p :: rest).insertionSort (fun p q => p.1 ≤ q.1) =
        sort_points (p :: rest) from rfl, h] at hl
      simp at hl
    obtain ⟨t, ht⟩ := anchor_low_head _ hsne
    exact anchor_high_spec _ t ht

/-! ### Facts about `bisect_left`, `isclose` and `interpolate_speed` -/

theorem isclose_self (a : ℚ) : isclose a a = true := by
  simp only [isclose, decide_eq_true_eq, sub_self, abs_zero]
  positivity

theorem isclose_far {a t : ℚ} (ha0 : 0 ≤ a) (ha1 : a ≤ 360) (h : 10 < |a - t|) :
    isclose a t = false := by
  simp only [isclose, decide_eq_false_iff_not, not_le]
  rw [max_lt_iff]
  have haa : |a| ≤ 360 := by rw [abs_of_nonneg ha0]; linarith
  constructor
  · by_cases hcase : |t| ≤ 720
    · have hm : max |a| |t| ≤ 720 := max_le (by linarith) hcase
      have : (1 : ℚ) / 1000000000 * max |a| |t| ≤ 1 / 1000000000 * 720 := by
        apply mul_le_mul_of_nonneg_left hm
        norm_num
      linarith
    · push_neg at hcase
      have hmax : max |a| |t| = |t| := max_eq_right (by linarith)
      rw [hmax]
      have h1 : |t| - |a| ≤ |t - a| := abs_sub_abs_le_abs_sub t a
      rw [abs_sub_comm] at h1
      linarith
  · linarith

theorem takeWhile_lt_getD {l : List ℚ} (hl : l.Pairwise (fun a b => a < b))
    {i : ℕ} (hi : i < l.length) :
    (l.takeWhile (fun a => decide (a < l.getD i 0))).length = i := by
  induction l generalizing i with
  | nil => simp at hi
  | cons x t ih =>
    rcases i with _ | j
    · rw [List.getD_cons_zero, List.takeWhile_cons_of_neg (by simp)]
      rfl
    · have hj : j < t.length := by simpa using hi
      have hx : x < (x :: t).getD (j + 1) 0 := by
        rw [List.getD_cons_succ]
        have hmem : t.getD j 0 ∈ t := by
          rw [List.getD_eq_getElem _ _ hj]
          exact List.getElem_mem _
        exact (List.pairwise_cons.mp hl).1 _ hmem
      rw [List.takeWhile_cons_of_pos (by simpa using hx)]
      rw [List.length_cons]
      rw [List.getD_cons_succ]
      rw [ih (List.Pairwise.of_cons hl) hj]

theorem bisect_left_all_lt {l : List ℚ} {target : ℚ} (h : ∀ a ∈ l, a < target) :
    bisect_left l target = l.length := by
  unfold bisect_left
  rw [List.takeWhile_eq_self_iff.mpr (fun x hx => by simpa using h x hx)]

theorem map_fst_getD (points : List (ℚ × ℚ)) (i : ℕ) (hi : i < points.length) :
    (points.map Prod.fst).getD i 0 = (points.getD i (0, 0)).1 := by
  rw [List.getD_eq_getElem _ _ (by simpa using hi), List.getD_eq_getElem _ _ hi,
    List.getElem_map]

theorem getD_last_rat (l : List ℚ) (hne : l ≠ []) :
    l.getLast? = some (l.getD (l.length - 1) 0) := by
  have hpos : 0 < l.length := List.length_pos.mpr hne
  rw [List.getLast?_eq_getElem?, List.getD_eq_getElem _ _ (by omega),
    List.getElem?_eq_getElem (by omega)]

theorem interpolate_exact (points : List (ℚ × ℚ))
    (hsorted : points.Pairwise (fun p q => p.1 < q.1))
    (i : ℕ) (hi : i < points.length) :
    interpolate_speed points ((points.getD i (0, 0)).1) =
      some ((points.getD i (0, 0)).2) := by
  rcases points with _ | ⟨first, rest⟩
  · simp at hi
  · simp only [interpolate_speed]
    have hidx : bisect_left ((first :: rest).map Prod.fst)
        (((first :: rest).getD i (0, 0)).1) = i := by
      have hmap : ((first :: rest).map Prod.fst).Pairwise (fun a b => a < b) :=
        List.pairwise_map.mpr hsorted
      have hlen : i < ((first :: rest).map Prod.fst).length := by simpa using hi
      have hres := takeWhile_lt_getD hmap hlen
      rw [map_fst_getD _ _ hi] at hres
      exact hres
    rw [hidx]
    have hcond : (decide (i < (first :: rest).length) &&
        isclose (((first :: rest).map Prod.fst).getD i 0)
          (((first :: rest).getD i (0, 0)).1)) = true := by
      rw [map_fst_getD _ _ hi, isclose_self]
      simpa using hi
    rw [hcond, if_pos rfl]


theorem interpolate_none_low (points : List (ℚ × ℚ))
    (hrange : ∀ p ∈ points, 0 ≤ p.1 ∧ p.1 ≤ 360)
    (first : ℚ × ℚ) (hfirst : points.head? = some first)
    (target : ℚ) (ht : target < first.1 - 10) :
    interpolate_speed points target = none := by
  rcases points with _ | ⟨f, rest⟩
  · simp at hfirst
  · have hf : f = first := by simpa using hfirst
    subst hf
    simp only [interpolate_speed]
    have hb : bisect_left ((f :: rest).map Prod.fst) target = 0 := by
      unfold bisect_left
      rw [List.map_cons, List.takeWhile_cons_of_neg (by simp; linarith)]
      rfl
    rw [hb]
    have hic : isclose (((f :: rest).map Prod.fst).getD 0 0) target = false := by
      have h0 : ((f :: rest).map Prod.fst).getD 0 0 = f.1 := by simp
      rw [h0]
      apply isclose_far (hrange f (by simp)).1 (hrange f (by simp)).2
      rw [abs_of_pos (by linarith : (0 : ℚ) < f.1 - target)]
      linarith
    rw [hic, Bool.and_false, if_neg (by simp), if_pos rfl,
      if_neg (by push_neg; intro _; linarith)]

theorem interpolate_none_high (points : List (ℚ × ℚ))
    (hsorted : points.Pairwise (fun p q => p.1 < q.1))
    (last : ℚ × ℚ) (hlast : points.getLast? = some last)
    (target : ℚ) (ht : last.1 + 10 < target) :
    interpolate_speed points target = none := by
  rcases points with _ | ⟨f, rest⟩
  · simp at hlast
  · have hmap : ((f :: rest).map Prod.fst).Pairwise (fun a b => a ≤ b) :=
      (List.pairwise_map.mpr hsorted).imp (fun h => le_of_lt h)
    have hmne : (f :: rest).map Prod.fst ≠ [] := by simp
    have hmlast : ((f :: rest).map Prod.fst).getLast? = some last.1 := by
      rw [List.getLast?_map, hlast]
      rfl
    have hlast1 : ((f :: rest).map Prod.fst).getD
        (((f :: rest).map Prod.fst).length - 1) 0 = last.1 := by
      have := getD_last_rat _ hmne
      rw [this] at hmlast
      exact Option.some.inj hmlast
    have hall : ∀ a ∈ (f :: rest).map Prod.fst, a < target := by
      intro a ha
      have hle := sorted_getLast_max hmap hmne a ha
      rw [hlast1] at hle
      linarith
    have hb : bisect_left ((f :: rest).map Prod.fst) target =
        (f :: rest).length := by
      rw [bisect_left_all_lt hall]
      simp
    simp only [interpolate_speed]
    rw [hb]
    have hfalse : decide ((f :: rest).length < (f :: rest).length) = false := by simp
    rw [hfalse, Bool.false_and, if_neg (by simp), if_neg (by simp), if_pos rfl]
    have hlastD : (f :: rest).getLastD (0, 0) = last := by
      rw [List.getLastD_eq_getLast?, hlast]
      rfl
    rw [hlastD, if_neg (by push_neg; intro _; linarith)]


/-! ### Mirrored-sample facts -/

theorem fmod_eq_self {x y : ℚ} (hy : 0 < y) (h0 : 0 ≤ x) (h1 : x < y) :
    fmod x y = x := by
  unfold fmod
  have hz : ⌊x / y⌋ = 0 := by
    apply Int.floor_eq_zero_iff.mpr
    constructor
    · exact div_nonneg h0 (le_of_lt hy)
    · rw [div_lt_one hy]
      exact h1
  rw [hz]
  ring

theorem mirrored_angle_eq (twa : ℚ) (h30 : 30 ≤ twa) (h180 : twa < 180) :
    fmod (360 - twa) 360 = 360 - twa ∧ fmod (360 - twa) 360 ≤ 330 := by
  have hm : fmod (360 - twa) 360 = 360 - twa :=
    fmod_eq_self (by norm_num) (by linarith) (by linarith)
  exact ⟨hm, by rw [hm]; linarith⟩

theorem sample_contribution_spec (e : RawEntry) (lbl : String)
    (hws : 0 < e.wind_speed) (hsog : e.sog ≤ 0.8 * e.wind_speed)
    (hangle : 30 ≤ true_wind_angle e.course e.wind_dir)
    (hband : categorize_wind_speed e.wind_speed = some lbl) :
    sample_contribution e =
      Sample.mk (true_wind_angle e.course e.wind_dir) e.stw ::
        (if true_wind_angle e.course e.wind_dir < 180 then
          [Sample.mk (fmod (360 - true_wind_angle e.course e.wind_dir) 360) e.stw]
        else []) := by
  simp only [sample_contribution, if_neg (not_le.mpr hws), if_neg (not_lt.mpr hsog), hband]
  rw [if_neg (not_lt.mpr hangle)]
  by_cases h180 : true_wind_angle e.course e.wind_dir < 180
  · have hm := mirrored_angle_eq _ hangle h180
    rw [if_pos ⟨by linarith, h180⟩, if_pos hm.2, if_pos h180]
    rfl
  · rw [if_neg (by intro hc; exact h180 hc.2), if_neg h180]

theorem curve_points_nil_of_below (samples : List Sample) (bin_size : ℤ)
    (pct : ℚ) (min_samples : ℤ) (keys : List ℤ)
    (h : ∀ key ∈ keys, ∃ f,
      remove_outliers (bucket_values samples bin_size key) = some f ∧
      (f.length : ℤ) < min_samples) :
    curve_points_of_keys samples bin_size pct min_samples keys = some [] := by
  induction keys with
  | nil => rfl
  | cons key rest ih =>
    obtain ⟨f, hf, hflen⟩ := h key (List.mem_cons_self _ _)
    simp only [curve_points_of_keys, hf]
    rw [if_pos hflen]
    exact ih (fun k hk => h k (List.mem_cons_of_mem _ hk))

/-! ### The claims -/

/-- C1, counterexample: at `binSize = 7` (which does not divide 360) and
angle 359, the code buckets the sample at centre 0, while the claimed formula
`floor((a + binSize/2) / binSize) * binSize mod 360` gives 357.  The code
reduces the shifted angle modulo 360 *before* dividing, not after. -/
theorem bucket_center_ne_nearest_formula :
    bucket_center 7 359 = 0 ∧
    (⌊((359 : ℚ) + 7 / 2) / 7⌋ * 7) % 360 = 357 ∧
    bucket_center 7 359 ≠ (⌊((359 : ℚ) + 7 / 2) / 7⌋ * 7) % 360 := by
  refine ⟨?_, ?_, ?_⟩
  · norm_num [bucket_center, fmod]
  · norm_num
  · norm_num [bucket_center, fmod]

/-- C1, amended: the bucket centre the code assigns is
`floor(((a + binSize/2) mod 360) / binSize) * binSize`; this equals the
claimed `floor((a + binSize/2) / binSize) * binSize mod 360` for every sample
angle whenever the positive `binSize` divides 360 (nearest-bucket rounding
with wrap-around), but not for bin sizes that do not divide 360. -/
theorem bucket_center_eq_nearest_formula_of_dvd (a : ℚ) (b : ℤ)
    (hb : 0 < b) (hdvd : b ∣ 360) :
    bucket_center b a = (⌊(a + (b : ℚ) / 2) / (b : ℚ)⌋ * b) % 360 := by
  obtain ⟨c, hc⟩ := hdvd
  have hb0 : (0 : ℚ) < (b : ℚ) := by exact_mod_cast hb
  have hc0 : 0 < c := by nlinarith [hc]
  have hbc : ((b : ℚ)) * ((c : ℚ)) = 360 := by exact_mod_cast hc.symm
  set y : ℚ := a + (b : ℚ) / 2 with hy
  set k : ℤ := ⌊y / 360⌋ with hk
  have hdivq : (y - 360 * (k : ℚ)) / (b : ℚ) = y / (b : ℚ) - ((c * k : ℤ) : ℚ) := by
    rw [div_eq_iff (ne_of_gt hb0)]
    push_cast
    field_simp
    linear_combination (-(k : ℚ)) * hbc
  have hfmod : fmod y 360 = y - 360 * (k : ℚ) := by
    simp [fmod, hk]
  have key : ⌊fmod y 360 / (b : ℚ)⌋ = ⌊y / (b : ℚ)⌋ - c * k := by
    rw [hfmod, hdivq, Int.floor_sub_int]
  have h0 : 0 ≤ y - 360 * (k : ℚ) := by
    have h' : ((k : ℚ)) ≤ y / 360 := Int.floor_le (y / 360)
    rw [le_div_iff₀ (by norm_num : (0 : ℚ) < 360)] at h'
    linarith
  have h1 : y - 360 * (k : ℚ) < 360 := by
    have h' : y / 360 < (k : ℚ) + 1 := Int.lt_floor_add_one (y / 360)
    rw [div_lt_iff₀ (by norm_num : (0 : ℚ) < 360)] at h'
    linarith
  have hlow : 0 ≤ ⌊fmod y 360 / (b : ℚ)⌋ := by
    apply Int.floor_nonneg.mpr
    rw [hfmod]
    positivity
  have hhigh : ⌊fmod y 360 / (b : ℚ)⌋ < c := by
    apply Int.floor_lt.mpr
    rw [hfmod, div_lt_iff₀ hb0]
    nlinarith [hbc]
  unfold bucket_center
  rw [← hy, key]
  set X : ℤ := ⌊y / (b : ℚ)⌋ with hX
  have expand : (X - c * k) * b = X * b - k * 360 := by
    have hbc' : b * c = 360 := hc.symm
    linear_combination (-k : ℤ) * hbc'
  rw [expand]
  rw [key] at hlow hhigh
  have hb1 : 0 ≤ (X - c * k) * b := mul_nonneg hlow (le_of_lt hb)
  have hb2 : (X - c * k) * b < 360 := by
    have step : (X - c * k) * b ≤ (c - 1) * b :=
      mul_le_mul_of_nonneg_right (by omega) (le_of_lt hb)
    have hcb : (c - 1) * b = 360 - b := by
      have hbc' : b * c = 360 := hc.symm
      linear_combination hbc'
    omega
  rw [expand] at hb1 hb2
  generalize X * b = Z at *
  omega

theorem bucket_center_nearest_formula_witness :
    bucket_center 10 42 = (⌊((42 : ℚ) + (10 : ℤ) / 2) / (10 : ℤ)⌋ * 10) % 360 :=
  bucket_center_eq_nearest_formula_of_dvd 42 10 (by norm_num) (by norm_num)

/-- C2, counterexample: querying the curve `[(10,5),(20,6)]` at angle 5 does
NOT return "no value": the gap to the first point is 5 degrees, inside the
10-degree extrapolation tolerance, so the first point's speed is returned. -/
theorem interpolate_at_five_not_none :
    interpolate_speed [((10 : ℚ), (5 : ℚ)), (20, 6)] 5 ≠ none := by
  have h : interpolate_speed [((10 : ℚ), (5 : ℚ)), (20, 6)] 5 = some 5 := by
    norm_num [interpolate_speed, bisect_left, isclose, List.takeWhile]
  rw [h]
  simp

/-- C2, amended: on the curve `[(10,5),(20,6)]` a query at angle 5 (gap 5
degrees, within tolerance) returns the first point's speed 5.0; a query at
angle 0 (gap exactly 10) still returns 5.0; a query at angle -0.01 (gap
10.01) returns "no value". -/
theorem interpolate_boundary_gap_values :
    interpolate_speed [((10 : ℚ), (5 : ℚ)), (20, 6)] 5 = some 5 ∧
    interpolate_speed [((10 : ℚ), (5 : ℚ)), (20, 6)] 0 = some 5 ∧
    interpolate_speed [((10 : ℚ), (5 : ℚ)), (20, 6)] (-1 / 100) = none := by
  refine ⟨?_, ?_, ?_⟩ <;>
    norm_num [interpolate_speed, bisect_left, isclose, List.takeWhile,
      abs_of_nonneg, abs_of_nonpos]

/-- C3: for every non-empty list of aggregated (bucketCentre, speed) points,
the assembled-and-smoothed curve starts exactly at (0,0) and ends exactly at
(360,0); the low anchor is inserted when the lowest angle is positive and
otherwise overwrites the lowest point (symmetrically at the 360 end inside
`anchor_high`), and smoothing never alters the first or last point. -/
theorem assemble_curve_anchors (cps : List (ℚ × ℚ)) (hne : cps ≠ []) :
    (assemble_curve cps).head? = some ((0 : ℚ), (0 : ℚ)) ∧
    (assemble_curve cps).getLast? = some ((360 : ℚ), (0 : ℚ)) ∧
    (∀ (a s : ℚ) (rest : List (ℚ × ℚ)), sort_points cps = (a, s) :: rest →
      anchor_low (sort_points cps) =
        if 0 < a then ((0 : ℚ), (0 : ℚ)) :: (a, s) :: rest
        else ((0 : ℚ), (0 : ℚ)) :: rest) ∧
    (∀ (pts : List (ℚ × ℚ)) (w : ℤ),
      (smooth_curve pts w).head? = pts.head? ∧
      (smooth_curve pts w).getLast? = pts.getLast?) := by
  refine ⟨(assemble_curve_head_last cps hne).1, (assemble_curve_head_last cps hne).2,
    ?_, ?_⟩
  · intro a s rest h
    rw [h]
    rfl
  · intro pts w
    exact ⟨smooth_curve_head pts w, smooth_curve_getLast pts w⟩

theorem assemble_curve_anchors_witness :
    (assemble_curve [((100 : ℚ), (5 : ℚ))]).head? = some ((0 : ℚ), (0 : ℚ)) ∧
    (assemble_curve [((100 : ℚ), (5 : ℚ))]).getLast? = some ((360 : ℚ), (0 : ℚ)) :=
  ⟨(assemble_curve_anchors [((100 : ℚ), (5 : ℚ))] (by simp)).1,
   (assemble_curve_anchors [((100 : ℚ), (5 : ℚ))] (by simp)).2.1⟩

/-- C4: OutlierFilter returns the list unchanged when it has fewer than 4
values; otherwise, with Q1 and Q3 from the R-7 percentile rule and
IQR = Q3 - Q1, it keeps exactly the values in [Q1, Q3] when IQR <= 0 and
exactly the values in [Q1 - 1.5*IQR, Q3 + 1.5*IQR] when IQR > 0. -/
theorem remove_outliers_spec (values : List ℚ) :
    (values.length < 4 → remove_outliers values = some values) ∧
    (4 ≤ values.length → ∃ q1 q3,
      percentile values 25 = some q1 ∧ percentile values 75 = some q3 ∧
      remove_outliers values = some (if q3 - q1 ≤ 0 then
          values.filter (fun v => decide (q1 ≤ v ∧ v ≤ q3))
        else
          values.filter (fun v =>
            decide (q1 - 1.5 * (q3 - q1) ≤ v ∧ v ≤ q3 + 1.5 * (q3 - q1))))) := by
  constructor
  · intro h
    simp [remove_outliers, h]
  · intro h4
    have hne : values ≠ [] := by
      intro h
      rw [h] at h4
      simp at h4
    obtain ⟨q1, hq1⟩ := Option.isSome_iff_exists.mp (percentile_isSome values 25 hne)
    obtain ⟨q3, hq3⟩ := Option.isSome_iff_exists.mp (percentile_isSome values 75 hne)
    refine ⟨q1, q3, hq1, hq3, ?_⟩
    simp only [remove_outliers, if_neg (by omega : ¬ values.length < 4), hq1, hq3]
    by_cases hiqr : q3 - q1 ≤ 0
    · rw [if_pos hiqr, if_pos hiqr]
    · rw [if_neg hiqr, if_neg hiqr]

theorem remove_outliers_spec_witness :
    remove_outliers [(1 : ℚ), 2, 3] = some [(1 : ℚ), 2, 3] :=
  (remove_outliers_spec [(1 : ℚ), 2, 3]).1 (by simp)

/-- C5: for a non-empty value list, percentile at pct 50 on an odd-length
list returns the exact middle element of the sorted list, at pct 0 the
minimum, at pct 100 the maximum, and on a single-element list it returns
that element for every pct. -/
theorem percentile_order_stats (values : List ℚ) (hne : values ≠ []) :
    (∀ k : ℕ, values.length = 2 * k + 1 →
      percentile values 50 = some ((pySorted values).getD k 0)) ∧
    (∃ m, percentile values 0 = some m ∧ m ∈ values ∧ ∀ x ∈ values, m ≤ x) ∧
    (∃ M, percentile values 100 = some M ∧ M ∈ values ∧ ∀ x ∈ values, x ≤ M) ∧
    (∀ (x : ℚ) (pct : ℚ), values = [x] → percentile values pct = some x) :=
  ⟨fun k hk => percentile_fifty_median values k hk,
   percentile_zero_min values hne,
   percentile_hundred_max values hne,
   fun x pct hx => by rw [hx]; exact percentile_singleton x pct⟩

theorem percentile_order_stats_witness :
    percentile [(3 : ℚ), 1, 2] 50 = some ((pySorted [(3 : ℚ), 1, 2]).getD 1 0) ∧
    (pySorted [(3 : ℚ), 1, 2]).getD 1 0 = 2 :=
  ⟨(percentile_order_stats [(3 : ℚ), 1, 2] (by simp)).1 1 (by simp),
   by norm_num [pySorted, List.insertionSort, List.orderedInsert]⟩

/-- C6: a raw entry that passes the upstream filters (positive wind speed,
sog at most 0.8 x wind speed, normalized angle at least 30) and falls in a
band contributes its primary sample, plus a mirrored duplicate with the same
speed at `(360 - angle) mod 360` exactly when the normalized angle is
strictly between 0 and 180 (the `<= 330` proviso holds automatically there);
in all other cases no duplicate is produced. -/
theorem mirrored_duplicate_spec (e : RawEntry) (lbl : String)
    (hws : 0 < e.wind_speed) (hsog : e.sog ≤ 0.8 * e.wind_speed)
    (hangle : 30 ≤ true_wind_angle e.course e.wind_dir)
    (hband : categorize_wind_speed e.wind_speed = some lbl) :
    sample_contribution e =
      Sample.mk (true_wind_angle e.course e.wind_dir) e.stw ::
        (if true_wind_angle e.course e.wind_dir < 180 then
          [Sample.mk (fmod (360 - true_wind_angle e.course e.wind_dir) 360) e.stw]
        else []) ∧
    (true_wind_angle e.course e.wind_dir < 180 →
      fmod (360 - true_wind_angle e.course e.wind_dir) 360 =
        360 - true_wind_angle e.course e.wind_dir ∧
      fmod (360 - true_wind_angle e.course e.wind_dir) 360 ≤ 330) :=
  ⟨sample_contribution_spec e lbl hws hsog hangle hband,
   fun h => mirrored_angle_eq _ hangle h⟩

theorem mirrored_duplicate_witness :
    sample_contribution ⟨6, 5, 10, 100, 0⟩ =
      [Sample.mk 100 6, Sample.mk 260 6] := by
  have h := (mirrored_duplicate_spec ⟨6, 5, 10, 100, 0⟩ "7.5-12.5 kn"
    (by norm_num) (by norm_num)
    (by norm_num [true_wind_angle, fmod])
    (by norm_num [categorize_wind_speed])).1
  rw [h]
  norm_num [true_wind_angle, fmod]

/-- C7, counterexample: on the curve `[(10,5),(20,6)]`, the query
`10 + 1/2000000` lies within 1e-6 of the stored angle 10 but does NOT return
the stored speed 5 exactly: `bisect_left` lands on the next point, the
near-match test against angle 20 fails, and linear interpolation returns
`5 + 1/20000000`.  Only queries at or within tolerance *below* a stored
angle hit the near-match branch. -/
theorem interpolate_near_match_not_exact :
    |(10 + 1 / 2000000 : ℚ) - 10| ≤ 1 / 1000000 ∧
    interpolate_speed [((10 : ℚ), (5 : ℚ)), (20, 6)] (10 + 1 / 2000000) =
      some (5 + 1 / 20000000) ∧
    interpolate_speed [((10 : ℚ), (5 : ℚ)), (20, 6)] (10 + 1 / 2000000) ≠
      some 5 := by
  have h2 : interpolate_speed [((10 : ℚ), (5 : ℚ)), (20, 6)] (10 + 1 / 2000000) =
      some (5 + 1 / 20000000) := by
    norm_num [interpolate_speed, bisect_left, isclose, List.takeWhile,
      abs_of_nonneg, abs_of_nonpos]
  refine ⟨by rw [abs_of_nonneg (by norm_num)]; norm_num, h2, ?_⟩
  rw [h2]
  intro hcontra
  rw [Option.some.injEq] at hcontra
  norm_num at hcontra

/-- C7, amended: for every assembled curve (strictly ascending angles, all
within [0,360]), a query exactly equal to a stored point's angle returns that
point's stored speed exactly, and a query more than 10 degrees below the
first angle or more than 10 degrees above the last angle returns "no value". -/
theorem interpolate_roundtrip_and_bounds (points : List (ℚ × ℚ))
    (hsorted : points.Pairwise (fun p q => p.1 < q.1))
    (hrange : ∀ p ∈ points, 0 ≤ p.1 ∧ p.1 ≤ 360) :
    (∀ i : ℕ, i < points.length →
      interpolate_speed points ((points.getD i (0, 0)).1) =
        some ((points.getD i (0, 0)).2)) ∧
    (∀ (first : ℚ × ℚ) (target : ℚ), points.head? = some first →
      target < first.1 - 10 → interpolate_speed points target = none) ∧
    (∀ (last : ℚ × ℚ) (target : ℚ), points.getLast? = some last →
      last.1 + 10 < target → interpolate_speed points target = none) :=
  ⟨fun i hi => interpolate_exact points hsorted i hi,
   fun first target h1 h2 => interpolate_none_low points hrange first h1 target h2,
   fun last target h1 h2 => interpolate_none_high points hsorted last h1 target h2⟩

theorem interpolate_roundtrip_witness :
    interpolate_speed [((10 : ℚ), (5 : ℚ)), (20, 6)]
        (([((10 : ℚ), (5 : ℚ)), (20, 6)].getD 0 (0, 0)).1) =
      some (([((10 : ℚ), (5 : ℚ)), (20, 6)].getD 0 (0, 0)).2) :=
  (interpolate_roundtrip_and_bounds [((10 : ℚ), (5 : ℚ)), (20, 6)]
    (by simp [List.pairwise_cons]; norm_num)
    (by
      intro p hp
      simp only [List.mem_cons, List.not_mem_nil, or_false] at hp
      rcases hp with rfl | rfl <;> norm_num)).1 0 (by simp)

/-- C8: a band with no samples, and likewise a band all of whose buckets stay
below `minSamples` after outlier filtering, produces the degenerate zero
curve [(0,0),(360,0)] and never a failure (`none`). -/
theorem degenerate_zero_curve (bin_size : ℤ) (pct : ℚ) (min_samples : ℤ) :
    aggregated_curve [] bin_size pct min_samples =
      some [((0 : ℚ), (0 : ℚ)), ((360 : ℚ), (0 : ℚ))] ∧
    ∀ samples : List Sample,
      (∀ key ∈ bucket_keys samples bin_size, ∃ f,
        remove_outliers (bucket_values samples bin_size key) = some f ∧
        (f.length : ℤ) < min_samples) →
      aggregated_curve samples bin_size pct min_samples =
        some [((0 : ℚ), (0 : ℚ)), ((360 : ℚ), (0 : ℚ))] := by
  constructor
  · rfl
  · intro samples h
    unfold aggregated_curve
    rw [curve_points_nil_of_below samples bin_size pct min_samples _ h]
    rfl

theorem degenerate_zero_curve_witness :
    aggregated_curve [] 10 80 3 =
      some [((0 : ℚ), (0 : ℚ)), ((360 : ℚ), (0 : ℚ))] ∧
    aggregated_curve [Sample.mk 45 6] 10 80 3 =
      some [((0 : ℚ), (0 : ℚ)), ((360 : ℚ), (0 : ℚ))] := by
  constructor
  · exact (degenerate_zero_curve 10 80 3).1
  · apply (degenerate_zero_curve 10 80 3).2
    intro key hkey
    have hks : bucket_keys [Sample.mk 45 6] 10 = [50] := by
      norm_num [bucket_keys, bucket_center, fmod, List.dedup,
        List.insertionSort, List.orderedInsert]
    rw [hks] at hkey
    simp only [List.mem_singleton] at hkey
    subst hkey
    refine ⟨[6], ?_, by norm_num⟩
    have hbv : bucket_values [Sample.mk 45 6] 10 50 = [6] := by
      norm_num [bucket_values, bucket_center, fmod]
    rw [hbv]
    rfl

/-- C9: percentile never fails on a non-empty list for any pct; out-of-range
percentiles are silently clamped: any pct below 0 behaves exactly like 0 and
any pct above 100 exactly like 100. -/
theorem percentile_clamps (values : List ℚ) (pct : ℚ) (hne : values ≠ []) :
    (percentile values pct).isSome = true ∧
    (pct < 0 → percentile values pct = percentile values 0) ∧
    (100 < pct → percentile values pct = percentile values 100) := by
  refine ⟨percentile_isSome values pct hne, fun h => ?_, fun h => ?_⟩
  · apply percentile_congr_clamp
    rw [min_eq_right (by linarith : pct ≤ (100 : ℚ)), max_eq_left (le_of_lt h)]
    norm_num
  · apply percentile_congr_clamp
    rw [min_eq_left (by linarith : (100 : ℚ) ≤ pct)]
    norm_num

theorem percentile_clamps_witness :
    percentile [(3 : ℚ), 1, 2] (-5) = percentile [(3 : ℚ), 1, 2] 0 :=
  (percentile_clamps [(3 : ℚ), 1, 2] (-5) (by simp)).2.1 (by norm_num)

/-- C10: OutlierFilter maps a non-empty value list to a non-empty kept list
(a central order statistic always survives both the degenerate and the
1.5*IQR fence), so the empty-input failure of percentile is unreachable in
the per-bucket aggregation: `aggregated_curve` succeeds for every
`minSamples`, including non-positive ones (for any positive bin size). -/
theorem remove_outliers_nonempty_total :
    (∀ values : List ℚ, values ≠ [] →
      ∃ kept, remove_outliers values = some kept ∧ kept ≠ []) ∧
    (∀ (samples : List Sample) (bin_size : ℤ) (pct : ℚ) (min_samples : ℤ),
      0 < bin_size →
      (aggregated_curve samples bin_size pct min_samples).isSome = true) :=
  ⟨remove_outliers_some_nonempty,
   fun samples bin_size pct min_samples _ =>
     aggregated_curve_isSome samples bin_size pct min_samples⟩

theorem remove_outliers_nonempty_witness :
    (∃ kept, remove_outliers [(1 : ℚ), 2, 3, 4, 100] = some kept ∧ kept ≠ []) ∧
    (aggregated_curve [] 10 80 (-1)).isSome = true :=
  ⟨remove_outliers_nonempty_total.1 [(1 : ℚ), 2, 3, 4, 100] (by simp),
   remove_outliers_nonempty_total.2 [] 10 80 (-1) (by norm_num)⟩
